import Mathlib

/-!
Verification development for `nussl/spectral_utils.py` (STFT / iSTFT engine).

Shallow embedding conventions:
* numpy 1-D real arrays are `RArr`: a length together with a total value
  function `ℕ → ℝ` (reads outside `[0, len)` never occur in the verified
  statements; concatenation with zero arrays makes the value function total).
* complex spectrograms are `Spectro` with a `(bin, frame)`-indexed value
  function, matching the orientation the source produces after its transpose.
* Python 2 integer division on ints is `Nat` division (`/` on Python 2 ints
  floors); where an intermediate value can be negative the embedding computes
  in `ℤ` with `Int.fdiv` (Python floor division) and converts with `toNat`
  exactly where numpy receives the value as a shape.
* Python slice semantics `a[start:stop]` (negative wrap-around, clamping) are
  `pynorm`/`pyslice`.
* `scipy.fftpack.fft(x, n)` / `ifft` are `dft` / `idft`: the exact complex DFT
  (floating point is modelled by exact real/complex arithmetic).
-/

open Finset

/-- Python slice index normalization for step 1: a negative index counts from
the end, then the result is clamped into `[0, N]`. -/
def pynorm (N : ℕ) (i : ℤ) : ℕ :=
  if i < 0 then (i + N).toNat else if i ≤ (N : ℤ) then i.toNat else N

/-- A numpy 1-D real array: a length plus a total value function. -/
structure RArr where
  len : ℕ
  val : ℕ → ℝ

/-- The all-zeros array `np.zeros(n)`. -/
def rzeros (n : ℕ) : RArr := ⟨n, fun _ => 0⟩

/-- Concatenation `np.concatenate((a, b))`. -/
def rconcat (a b : RArr) : RArr :=
  ⟨a.len + b.len, fun i => if i < a.len then a.val i else b.val (i - a.len)⟩

/-- Python slice `a[start:stop]` with step 1 (negative indices wrap, both
ends clamp into range). -/
def pyslice (a : RArr) (start stop : ℤ) : RArr :=
  ⟨pynorm a.len stop - pynorm a.len start, fun t => a.val (pynorm a.len start + t)⟩

/-- A complex spectrogram, indexed as `val bin frame` (the orientation
`e_stft` returns after its transpose at line 167). -/
structure Spectro where
  bins : ℕ
  frames : ℕ
  val : ℕ → ℕ → ℂ

/-- The string constants of class `WindowType` (lines 298-305). -/
def WindowType.RECTANGULAR : String := "rectangular"

def WindowType.HAMMING : String := "hamming"

def WindowType.HANN : String := "hann"

def WindowType.BLACKMAN : String := "blackman"

def WindowType.DEFAULT : String := WindowType.HAMMING

def WindowType.all_types : List String :=
  [WindowType.RECTANGULAR, WindowType.HAMMING, WindowType.HANN, WindowType.BLACKMAN]

noncomputable section

/-- `scipy.signal.hann(length, False)`: the periodic Hann window
`w[j] = 1/2 - 1/2·cos(2πj/N)`; scipy special-cases `M = 1` to `[1.0]`. -/
def hann_win (N : ℕ) (j : ℕ) : ℝ :=
  if N = 1 then 1 else 1 / 2 - 1 / 2 * Real.cos (2 * Real.pi * j / N)

/-- `scipy.signal.hamming(length, False)`: periodic Hamming window
`w[j] = 0.54 - 0.46·cos(2πj/N)`, with the same `M = 1` guard. -/
def hamming_win (N : ℕ) (j : ℕ) : ℝ :=
  if N = 1 then 1 else 0.54 - 0.46 * Real.cos (2 * Real.pi * j / N)

/-- `scipy.signal.blackman(length, False)`: periodic Blackman window
`w[j] = 0.42 - 0.5·cos(2πj/N) + 0.08·cos(4πj/N)`, with the `M = 1` guard. -/
def blackman_win (N : ℕ) (j : ℕ) : ℝ :=
  if N = 1 then 1 else
    0.42 - 0.5 * Real.cos (2 * Real.pi * j / N) + 0.08 * Real.cos (4 * Real.pi * j / N)

/-- `make_window` (lines 274-295): dispatch on the window-type tag in source
order (rectangular, hann, blackman, hamming); any other tag falls through to
`return None`, modelled as `none`. -/
def make_window (window_type : String) (length : ℕ) : Option (ℕ → ℝ) :=
  if window_type = WindowType.RECTANGULAR then some (fun _ => 1)
  else if window_type = WindowType.HANN then some (hann_win length)
  else if window_type = WindowType.BLACKMAN then some (blackman_win length)
  else if window_type = WindowType.HAMMING then some (hamming_win length)
  else none

/-- The body of `make_window` contains no `raise` statement, so a call always
returns normally; this wrapper records that fact in an error-channel type so
that "raises an exception" is expressible about it. -/
def make_window_run (window_type : String) (length : ℕ) :
    Except String (Option (ℕ → ℝ)) :=
  Except.ok (make_window window_type length)

/-- The primitive `n`-th root of unity power `e^{2πit/n}` used by the DFT. -/
def eunit (n : ℕ) (t : ℤ) : ℂ :=
  Complex.exp (2 * Real.pi * Complex.I * t / n)

/-- `scipy.fftpack.fft(x, n)` evaluated at bin `k`: the exact discrete Fourier
transform `X_k = Σ_{j<n} x_j e^{-2πijk/n}` of the first `n` samples of `x`
(`x` is already zero-extended by the caller when it is shorter than `n`). -/
def dft (n : ℕ) (x : ℕ → ℂ) (k : ℕ) : ℂ :=
  ∑ j in Finset.range n, x j * eunit n (-((j : ℤ) * k))

/-- `scipy.fftpack.ifft(X)` for a length-`n` spectrum, evaluated at sample
`j`: `x_j = (1/n) Σ_{k<n} X_k e^{2πijk/n}`. -/
def idft (n : ℕ) (X : ℕ → ℂ) (j : ℕ) : ℂ :=
  (n : ℂ)⁻¹ * ∑ k in Finset.range n, X k * eunit n ((j : ℤ) * k)

/-- Head/tail taper pad length of `e_stft` (lines 138-141): `window_length/2`
zeros for even length, `(window_length-1)/2` for odd (Python 2 int division). -/
def stft_head_pad (W : ℕ) : ℕ :=
  if W % 2 = 0 then W / 2 else (W - 1) / 2

/-- Extra tail pad of `e_stft` (lines 145-148): zeros up to the next multiple
of `hop_length` of the original signal length. -/
def stft_tail_pad (L H : ℕ) : ℕ :=
  if L % H ≠ 0 then H - L % H else 0

/-- The padded signal `e_stft` works on (lines 137-148): `zero_pad1` is
concatenated on BOTH sides of the signal (line 142), then `zero_pad2` is
appended (line 148). -/
def stft_pad (signal : RArr) (W H : ℕ) : RArr :=
  rconcat (rconcat (rconcat (rzeros (stft_head_pad W)) signal)
      (rzeros (stft_head_pad W)))
    (rzeros (stft_tail_pad signal.len H))

/-- One windowed frame (lines 159-162): `signal[start:start+W] * window`,
given as the real function scipy's `fft(·, n)` zero-extends/truncates. -/
def stft_frame (window : ℕ → ℝ) (padded : RArr) (W H m : ℕ) (j : ℕ) : ℝ :=
  if j < W then window j * padded.val (m * H + j) else 0

/-- The full (untrimmed, unmasked) STFT value at bin `b` of frame `m`
(line 163): `fft(windowed_signal, n=n_fft_bins)[b]`. -/
def stft_all_val (x : RArr) (W H n : ℕ) (wt : String) (b m : ℕ) : ℂ :=
  dft n (fun j =>
    Complex.ofReal (stft_frame ((make_window wt W).getD (fun _ => 0)) (stft_pad x W H) W H m j)) b

/-- `num_blocks` (line 153): `(len(signal) - window_length)/hop_length + 1`
with Python floor division (the numerator can be -1 for odd `W` and an empty
signal, hence the `ℤ` computation). -/
def stft_num_blocks (x : RArr) (W H : ℕ) : ℕ :=
  ((((stft_pad x W H).len : ℤ) - W).fdiv H + 1).toNat

/-- First kept frame after the reflection trim (line 169). -/
def stft_first (W H : ℕ) : ℕ := stft_head_pad W / H

/-- One-past-last kept frame after the reflection trim (line 170), a Python
slice stop index (it can be negative). -/
def stft_last (x : RArr) (W H : ℕ) : ℤ :=
  (stft_num_blocks x W H : ℤ) - ((stft_head_pad W + stft_tail_pad x.len H) / H : ℕ)

/-- `e_stft` (lines 77-173). `nfft` of `none` resolves to the next power of
two at or above `window_length` (line 133, `int(2**ceil(log2(W)))` modelled
exactly by `2 ^ Nat.clog 2 W`); with `remove_reflection` the kept rows are
`n/2 + 1` and the frame axis is trimmed by `stft[:, first:last]`
(lines 168-171); values at masked-out bins are 0 (numpy never stores them). -/
def e_stft (x : RArr) (W H : ℕ) (wt : String) (nfft : Option ℕ) (rr : Bool) : Spectro :=
  let n := match nfft with
    | none => 2 ^ Nat.clog 2 W
    | some m => m
  let nb := stft_num_blocks x W H
  let sb := if rr then n / 2 + 1 else n
  if rr then
    Spectro.mk sb (pynorm nb (stft_last x W H) - pynorm nb (stft_first W H))
      (fun b m =>
        if b < sb then stft_all_val x W H n wt b (pynorm nb (stft_first W H) + m) else 0)
  else
    Spectro.mk sb nb (fun b m => if b < sb then stft_all_val x W H n wt b m else 0)

/-- Error string for a Python `ZeroDivisionError`. -/
def ERR_ZERO_DIVISION : String := "ZeroDivisionError"

/-- Error string for a Python `TypeError`. -/
def ERR_TYPE : String := "TypeError"

/-- Error string for the exception name claimed by the specification. -/
def ERR_INVALID_PARAMETER : String := "InvalidParameter"

/-- Error string for the window exception name claimed by the specification. -/
def ERR_INVALID_WINDOW_TYPE : String := "InvalidWindowType"

/-- Running `e_stft` as Python would: the body of `e_stft` performs no input
validation of its own; the only failures that can surface on the embedded
domain are the `ZeroDivisionError` from `orig_signal_length % hop_length`
when `hop_length = 0` (line 146) and the `TypeError` from multiplying a frame
by the `None` returned by `make_window` for an unknown window type
(line 162). No `InvalidParameter` exception exists anywhere in the source. -/
def e_stft_checked (x : RArr) (W H : ℕ) (wt : String) (nfft : Option ℕ) (rr : Bool) :
    Except String Spectro :=
  if H = 0 then Except.error ERR_ZERO_DIVISION
  else if (make_window wt W).isNone then Except.error ERR_TYPE
  else Except.ok (e_stft x W H wt nfft rr)

/-- Rebuild of the full spectrum column in `e_istft` (lines 222-225):
`np.vstack((stft, stft[-2:0:-1, :].conj()))` — the supplied non-redundant
rows followed by rows `nbins-2, …, 1` conjugated. -/
def rebuild_full (col : ℕ → ℂ) (nbins : ℕ) (b : ℕ) : ℂ :=
  if b < nbins then col b else (starRingEnd ℂ) (col (nbins - 2 - (b - nbins)))

/-- Number of rows of the (possibly rebuilt) spectrum `e_istft` inverts:
`nbins + (nbins - 2)` when the reflection is reconstructed. -/
def istft_nfull (nbins : ℕ) (rr : Bool) : ℕ :=
  if rr then nbins + (nbins - 2) else nbins

/-- Column `k` of the spectrum `e_istft` inverts (after the optional
reflection reconstruction). -/
def istft_col (stft : Spectro) (rr : Bool) (b k : ℕ) : ℂ :=
  if rr then rebuild_full (fun r => stft.val r k) stft.bins b else stft.val b k

/-- The overlap-add accumulation loop of `e_istft` (lines 227-230): iteration
`n` adds `np.real(ifft(column n))` onto `signal[n*hop : n*hop + W]`; since the
iterations only ever add, the final buffer value at `s` is the sum of the
contributions of the frames whose support covers `s`. -/
def istft_buffer (stft : Spectro) (W H : ℕ) (rr : Bool) (s : ℕ) : ℝ :=
  ∑ k in Finset.range stft.frames,
    if k * H ≤ s ∧ s < k * H + W then
      (idft (istft_nfull stft.bins rr) (fun b => istft_col stft rr b k) (s - k * H)).re
    else 0

/-- `e_istft` (lines 176-238). `signal_length = (n_hops - 1)*hop + W`
(line 218, computed in `ℤ`: Python would hand numpy a negative length when
`n_hops = 0` and `W < H`); `window_type` is accepted and never used
(deprecated, line 186); with `remove_padding` the result is the Python slice
`signal[W - H : signal_length - (W - H)]` (lines 233-236). -/
def e_istft (stft : Spectro) (W H : ℕ) (wt : String) (rr rp : Bool) : RArr :=
  let slenZ : ℤ := ((stft.frames : ℤ) - 1) * H + W
  let base : RArr := ⟨slenZ.toNat, istft_buffer stft W H rr⟩
  if rp then pyslice base ((W : ℤ) - H) (slenZ - ((W : ℤ) - H)) else base

/-- `np.linspace(0, 1, num)` at index `i`. -/
def linspace01 (num : ℕ) (i : ℕ) : ℝ :=
  if num = 1 then 0 else (i : ℝ) / ((num : ℝ) - 1)

/-- `e_stft_plus` (lines 241-271): resolves an unspecified `n_fft_bins` to
`window_length` itself (lines 255-256), forwards to `e_stft`, and derives the
frequency axis (`sample_rate/2` is Python 2 int division), time axis and PSD. -/
def e_stft_plus (x : RArr) (W H : ℕ) (wt : String) (sample_rate : ℕ) (nfft : Option ℕ) :
    Spectro × (ℕ → ℕ → ℝ) × (ℕ → ℝ) × (ℕ → ℝ) :=
  let n := match nfft with
    | none => W
    | some m => m
  let stft := e_stft x W H wt (some n) true
  let frequency_vector : ℕ → ℝ := fun i => ((sample_rate / 2 : ℕ) : ℝ) * linspace01 (n / 2 + 1) i
  let time_vector : ℕ → ℝ := fun j => ((H : ℝ) / (1 * (sample_rate : ℝ))) * (j : ℝ)
  let window := (make_window wt W).getD (fun _ => 0)
  let win_dot : ℝ := ∑ j in Finset.range W, window j * window j
  let psd : ℕ → ℕ → ℝ := fun b m =>
    (1 / (sample_rate : ℝ)) * (Complex.abs (stft.val b m) ^ 2 / win_dot)
  (stft, psd, frequency_vector, time_vector)

end

/-- Modelled from the spec: `Constants.DEFAULT_WIN_LEN_PARAM` lives in the
`Constants` module, which is not under `src/`; the spec fixes it as a 40 ms
window duration. `int(2 ** ceil(log2(0.04 * sample_rate)))` is the smallest
power of two at or above `sample_rate/25`, modelled with `Nat.clog` on the
ceiling `(sample_rate + 24) / 25`. -/
def default_win_len (sample_rate : ℕ) : ℕ :=
  2 ^ Nat.clog 2 ((sample_rate + 24) / 25)

/-- The state of a `StftParams` object (lines 311-394): the three value
fields plus the two "needs update" flags that implement the lazy-dependent
defaults. -/
structure StftParams where
  sample_rate : ℕ
  window_type : String
  hidden_window_length : ℕ
  hidden_hop_length : ℕ
  hidden_n_fft_bins : ℕ
  hop_length_needs_update : Bool
  n_fft_bins_needs_update : Bool

/-- `StftParams.__init__` (lines 326-343): unspecified hop defaults to
`window_length/2`, unspecified bins to `window_length` (Python 2 int
division); each flag starts `True` and is cleared when the corresponding
argument was passed explicitly. -/
def StftParams.init (sample_rate : ℕ) (window_length hop_length : Option ℕ)
    (window_type : Option String) (n_fft_bins : Option ℕ) : StftParams :=
  let wl := window_length.getD (default_win_len sample_rate)
  { sample_rate := sample_rate
    window_type := window_type.getD WindowType.DEFAULT
    hidden_window_length := wl
    hidden_hop_length := hop_length.getD (wl / 2)
    hidden_n_fft_bins := n_fft_bins.getD wl
    hop_length_needs_update := hop_length.isNone
    n_fft_bins_needs_update := n_fft_bins.isNone }

/-- One attribute write on a `StftParams` object. -/
inductive ParamOp where
  | set_window_length (v : ℕ)
  | set_hop_length (v : ℕ)
  | set_n_fft_bins (v : ℕ)
  | set_window_type (v : String)
  | set_sample_rate (v : ℕ)

/-- Whether an op is an explicit write to `hop_length`. -/
def ParamOp.touches_hop : ParamOp → Bool
  | .set_hop_length _ => true
  | _ => false

/-- Whether an op is an explicit write to `n_fft_bins`. -/
def ParamOp.touches_nfft : ParamOp → Bool
  | .set_n_fft_bins _ => true
  | _ => false

/-- The property setters (lines 349-390): writing `window_length` re-derives
the two dependent fields exactly when their flags are still set; writing
`hop_length` or `n_fft_bins` stores the value and clears its flag. -/
def StftParams.apply (s : StftParams) : ParamOp → StftParams
  | .set_window_length v =>
      { s with
        hidden_window_length := v
        hidden_n_fft_bins := if s.n_fft_bins_needs_update then v else s.hidden_n_fft_bins
        hidden_hop_length := if s.hop_length_needs_update then v / 2 else s.hidden_hop_length }
  | .set_hop_length v =>
      { s with hidden_hop_length := v, hop_length_needs_update := false }
  | .set_n_fft_bins v =>
      { s with hidden_n_fft_bins := v, n_fft_bins_needs_update := false }
  | .set_window_type v => { s with window_type := v }
  | .set_sample_rate v => { s with sample_rate := v }

/-- A sequence of attribute writes, applied left to right. -/
def StftParams.applyList (s : StftParams) (ops : List ParamOp) : StftParams :=
  ops.foldl StftParams.apply s

/-- Concrete empty signal (for the validation counterexample). -/
def sig_empty : RArr := ⟨0, fun _ => 0⟩

/-- Concrete one-sample signal with value 5. -/
def sig_one : RArr := ⟨1, fun _ => 5⟩

/-- Concrete five-sample signal (only its length matters to the shape
counterexample). -/
def sig_five : RArr := ⟨5, fun _ => 1⟩

/-- Concrete two-sample signal (for the round-trip counterexample). -/
def sig_two : RArr := ⟨2, fun t => if t = 0 then 1 else 2⟩

/-- Concrete spectrogram column with a non-real Nyquist bin. -/
noncomputable def col_nyquist (r : ℕ) : ℂ := if r = 0 then 1 else Complex.I

/-- Concrete all-zero 3-bin, 1-frame spectrogram (for the trim
counterexample: its rebuilt spectrum has `2*3 - 2 = 4 = W` rows). -/
def sp_three_one : Spectro := ⟨3, 1, fun _ _ => 0⟩

/-- Concrete all-zero 3-bin, 2-frame spectrogram (for the trim witness). -/
def sp_three_two : Spectro := ⟨3, 2, fun _ _ => 0⟩

/-- Concrete eight-sample signal (for round-trip and shape witnesses). -/
def sig_eight : RArr := ⟨8, fun t => if t % 2 = 0 then 1 else 3⟩

/-- Concrete spectrogram column whose Nyquist bin (index 2 for `n = 4`) is
real. -/
noncomputable def col_real_nyquist (r : ℕ) : ℂ := if r = 1 then Complex.I else (r : ℝ)

/-- Concrete window-type tag outside the supported set. -/
def WT_UNKNOWN : String := "gaussian"

/-! ### Helper lemmas -/

theorem pynorm_eq_toNat (N : ℕ) (i : ℤ) (h0 : 0 ≤ i) (h1 : i ≤ (N : ℤ)) :
    pynorm N i = i.toNat := by
  simp only [pynorm]
  rw [if_neg (by omega), if_pos h1]

theorem pynorm_natCast (N m : ℕ) (h : m ≤ N) : pynorm N (m : ℤ) = m := by
  rw [pynorm_eq_toNat N m (by omega) (by omega)]
  omega

theorem eunit_add (n : ℕ) (a b : ℤ) : eunit n (a + b) = eunit n a * eunit n b := by
  unfold eunit
  rw [← Complex.exp_add]
  congr 1
  push_cast
  ring

theorem eunit_zero (n : ℕ) : eunit n 0 = 1 := by
  simp [eunit]

theorem eunit_mul_self (n : ℕ) (hn : 0 < n) (m : ℤ) : eunit n ((n : ℤ) * m) = 1 := by
  unfold eunit
  have hn0 : (n : ℂ) ≠ 0 := Nat.cast_ne_zero.mpr hn.ne'
  have harg : 2 * (Real.pi : ℂ) * Complex.I * (((n : ℤ) * m : ℤ) : ℂ) / (n : ℂ)
      = ((m : ℤ) : ℂ) * (2 * (Real.pi : ℂ) * Complex.I) := by
    push_cast
    field_simp
    ring
  rw [harg, Complex.exp_int_mul_two_pi_mul_I]

theorem eunit_mul_nat (n : ℕ) (d : ℤ) (k : ℕ) : eunit n (d * k) = eunit n d ^ k := by
  induction k with
  | zero => simp [eunit_zero]
  | succ k ih =>
      have h1 : d * ((k + 1 : ℕ) : ℤ) = d * k + d := by push_cast; ring
      rw [h1, eunit_add, ih, pow_succ]

theorem sum_eunit (n : ℕ) (hn : 0 < n) (d : ℤ) :
    ∑ k in Finset.range n, eunit n (d * k) = if (n : ℤ) ∣ d then (n : ℂ) else 0 := by
  by_cases hdvd : (n : ℤ) ∣ d
  · obtain ⟨m, rfl⟩ := hdvd
    rw [if_pos ⟨m, rfl⟩]
    have h1 : ∀ k ∈ Finset.range n, eunit n ((n : ℤ) * m * k) = 1 := by
      intro k _
      rw [mul_assoc, eunit_mul_self n hn]
    rw [Finset.sum_congr rfl h1, Finset.sum_const, Finset.card_range, nsmul_eq_mul, mul_one]
  · rw [if_neg hdvd]
    have hpi : (Real.pi : ℂ) ≠ 0 := Complex.ofReal_ne_zero.mpr Real.pi_ne_zero
    have hn0 : (n : ℂ) ≠ 0 := Nat.cast_ne_zero.mpr hn.ne'
    have hz : eunit n d ≠ 1 := by
      intro h
      apply hdvd
      obtain ⟨m, hm⟩ := Complex.exp_eq_one_iff.mp h
      refine ⟨m, ?_⟩
      have h2 : ((d : ℂ)) = (n : ℂ) * m := by
        field_simp at hm
        have h3 : (2 : ℂ) * (Real.pi : ℂ) * Complex.I ≠ 0 := by
          simp [hpi, Complex.I_ne_zero]
        have h4 : 2 * (Real.pi : ℂ) * Complex.I * (d : ℂ)
            = 2 * (Real.pi : ℂ) * Complex.I * ((n : ℂ) * m) := by
          rw [hm]; ring
        exact mul_left_cancel₀ h3 h4
      exact_mod_cast h2
    have hpow : ∀ k ∈ Finset.range n, eunit n (d * k) = eunit n d ^ k := by
      intro k _
      exact eunit_mul_nat n d k
    rw [Finset.sum_congr rfl hpow, geom_sum_eq hz n]
    have hzn : eunit n d ^ n = 1 := by
      rw [← eunit_mul_nat, mul_comm, eunit_mul_self n hn]
    rw [hzn, sub_self, zero_div]

theorem idft_dft (n : ℕ) (hn : 0 < n) (x : ℕ → ℂ) (j : ℕ) (hj : j < n) :
    idft n (fun k => dft n x k) j = x j := by
  unfold idft dft
  have key : ∑ k in Finset.range n,
      (∑ m in Finset.range n, x m * eunit n (-((m : ℤ) * k))) * eunit n ((j : ℤ) * k)
      = ∑ m in Finset.range n, x m * ∑ k in Finset.range n, eunit n (((j : ℤ) - m) * k) := by
    have h1 : ∀ k ∈ Finset.range n,
        (∑ m in Finset.range n, x m * eunit n (-((m : ℤ) * k))) * eunit n ((j : ℤ) * k)
        = ∑ m in Finset.range n, x m * eunit n (((j : ℤ) - m) * k) := by
      intro k _
      rw [Finset.sum_mul]
      refine Finset.sum_congr rfl (fun m _ => ?_)
      rw [mul_assoc, ← eunit_add]
      congr 2
      ring
    rw [Finset.sum_congr rfl h1, Finset.sum_comm]
    refine Finset.sum_congr rfl (fun m _ => ?_)
    rw [Finset.mul_sum]
  rw [key]
  have h2 : ∀ m ∈ Finset.range n, m ≠ j →
      x m * ∑ k in Finset.range n, eunit n (((j : ℤ) - m) * k) = 0 := by
    intro m hm hmj
    rw [sum_eunit n hn]
    rw [if_neg, mul_zero]
    intro hdvd
    have hd0 : (j : ℤ) - m ≠ 0 := by
      intro h
      apply hmj
      omega
    have hmn : m < n := Finset.mem_range.mp hm
    have habs : |(j : ℤ) - m| < n := by
      rw [abs_lt]
      omega
    have := Int.le_of_dvd (abs_pos.mpr hd0) ((dvd_abs _ _).mpr hdvd)
    omega
  rw [Finset.sum_eq_single_of_mem j (Finset.mem_range.mpr hj) h2]
  rw [sum_eunit n hn, if_pos (by simp), mul_comm (x j), ← mul_assoc]
  rw [inv_mul_cancel₀ (Nat.cast_ne_zero.mpr hn.ne'), one_mul]

theorem eunit_conj (n : ℕ) (t : ℤ) : (starRingEnd ℂ) (eunit n t) = eunit n (-t) := by
  unfold eunit
  rw [← Complex.exp_conj]
  congr 1
  simp only [map_div₀, map_mul, Complex.conj_I, Complex.conj_ofReal, map_ofNat,
    map_intCast, map_natCast]
  push_cast
  ring

theorem dft_conj_real (n : ℕ) (hn : 0 < n) (y : ℕ → ℝ) (b : ℕ) (hb : b ≤ n) :
    dft n (fun j => Complex.ofReal (y j)) (n - b)
      = (starRingEnd ℂ) (dft n (fun j => Complex.ofReal (y j)) b) := by
  unfold dft
  rw [map_sum]
  refine Finset.sum_congr rfl (fun j hj => ?_)
  rw [map_mul, Complex.conj_ofReal, eunit_conj]
  congr 1
  have hcast : ((n - b : ℕ) : ℤ) = (n : ℤ) - b := by omega
  have h1 : (-((j : ℤ) * ((n - b : ℕ) : ℤ))) = (j : ℤ) * b + (n : ℤ) * (-(j : ℤ)) := by
    rw [hcast]; ring
  rw [h1, eunit_add, eunit_mul_self n hn, mul_one]
  congr 1
  ring

theorem rebuild_dft (H : ℕ) (hH : 0 < H) (y : ℕ → ℝ) (col : ℕ → ℂ)
    (hcol : ∀ b, b < H + 1 → col b = dft (2 * H) (fun j => Complex.ofReal (y j)) b)
    (b : ℕ) (hb : b < 2 * H) :
    rebuild_full col (H + 1) b = dft (2 * H) (fun j => Complex.ofReal (y j)) b := by
  unfold rebuild_full
  by_cases hb1 : b < H + 1
  · rw [if_pos hb1, hcol b hb1]
  · rw [if_neg hb1]
    have hidx : H + 1 - 2 - (b - (H + 1)) = 2 * H - b := by omega
    rw [hidx, hcol (2 * H - b) (by omega)]
    rw [← dft_conj_real (2 * H) (by omega) y (2 * H - b) (by omega)]
    congr 1
    omega

theorem hann_cola (H : ℕ) (hH : 0 < H) (r : ℕ) :
    hann_win (2 * H) r + hann_win (2 * H) (r + H) = 1 := by
  unfold hann_win
  rw [if_neg (by omega), if_neg (by omega)]
  have harg : 2 * Real.pi * ((r + H : ℕ) : ℝ) / ((2 * H : ℕ) : ℝ)
      = 2 * Real.pi * (r : ℕ) / ((2 * H : ℕ) : ℝ) + Real.pi := by
    have hne : ((2 * H : ℕ) : ℝ) ≠ 0 := by
      simp
      omega
    field_simp
    ring
  rw [harg, Real.cos_add_pi]
  ring

theorem stft_pad_len (x : RArr) (W H : ℕ) :
    (stft_pad x W H).len
      = stft_head_pad W + x.len + stft_head_pad W + stft_tail_pad x.len H := by
  simp [stft_pad, rconcat, rzeros]

theorem stft_pad_val (x : RArr) (W H i : ℕ) :
    (stft_pad x W H).val i
      = if i < stft_head_pad W then 0
        else if i < stft_head_pad W + x.len then x.val (i - stft_head_pad W) else 0 := by
  simp only [stft_pad, rconcat, rzeros]
  split_ifs <;> first | rfl | omega

theorem stft_head_pad_eq_div (W : ℕ) : stft_head_pad W = W / 2 := by
  unfold stft_head_pad
  split
  · rfl
  · omega

theorem stft_tail_pad_of_dvd (L H : ℕ) (h : H ∣ L) : stft_tail_pad L H = 0 := by
  obtain ⟨c, rfl⟩ := h
  unfold stft_tail_pad
  simp [Nat.mul_mod_right]

/-! ### C4: edge padding -/

/-- C4 counterexample: the claim says only `⌊W/2⌋` head zeros plus the
hop-alignment tail zeros are added, so the padded length would be
`head + len + tail`; for a 1-sample signal with `W = 2`, `H = 1` the code
produces length 3 (it appends `zero_pad1` at the tail as well), not 2. -/
theorem C4_counterexample :
    ¬ ((stft_pad sig_one 2 1).len
        = stft_head_pad 2 + sig_one.len + stft_tail_pad sig_one.len 1) := by
  decide

/-- C4 (amended): `e_stft`'s padding stage `stft_pad` pads `⌊W/2⌋` zeros at
the head AND the same `⌊W/2⌋` zeros at the tail (line 142 concatenates
`zero_pad1` on both sides), then appends `hop - (len mod hop)` zeros (or none
when `len` is a multiple of `hop`); the original samples sit unchanged after
the head pad and everything outside them is zero. -/
theorem C4_padding (x : RArr) (W H : ℕ) (hH : 0 < H) :
    (stft_pad x W H).len
        = stft_head_pad W + x.len + stft_head_pad W + stft_tail_pad x.len H
      ∧ (∀ i, i < stft_head_pad W → (stft_pad x W H).val i = 0)
      ∧ (∀ i, i < x.len → (stft_pad x W H).val (stft_head_pad W + i) = x.val i)
      ∧ (∀ i, stft_head_pad W + x.len ≤ i → (stft_pad x W H).val i = 0)
      ∧ stft_head_pad W = W / 2
      ∧ stft_tail_pad x.len H = (if x.len % H ≠ 0 then H - x.len % H else 0) := by
  refine ⟨stft_pad_len x W H, ?_, ?_, ?_, stft_head_pad_eq_div W, rfl⟩
  · intro i hi
    rw [stft_pad_val, if_pos hi]
  · intro i hi
    rw [stft_pad_val, if_neg (by omega), if_pos (by omega)]
    congr 1
    omega
  · intro i hi
    rw [stft_pad_val, if_neg (by omega), if_neg (by omega)]

/-- C4 witness: the amended padding law evaluated on the 1-sample signal. -/
theorem C4_padding_witness :
    0 < 1 ∧ (stft_pad sig_one 2 1).len = 3 ∧ (stft_pad sig_one 2 1).val 1 = 5 :=
  ⟨Nat.one_pos, ((C4_padding sig_one 2 1 Nat.one_pos).1).trans (by decide),
    (C4_padding sig_one 2 1 Nat.one_pos).2.2.1 0 (by decide)⟩

/-! ### C6: unknown window type -/

/-- C6 counterexample: `make_window` on an unknown tag does not raise
`InvalidWindowType` (no such exception exists in the source); the call
returns normally. -/
theorem C6_counterexample :
    make_window_run WT_UNKNOWN 4 ≠ Except.error ERR_INVALID_WINDOW_TYPE :=
  fun h => Except.noConfusion h

/-- C6 (amended): for every tag outside the four supported types,
`make_window` returns normally with the value `None` (modelled `none`): no
fallback or default window is substituted, but no exception is raised either
— the bad tag only surfaces later, when `e_stft` multiplies a frame by
`None`. -/
theorem C6_unknown_window (wt : String) (h : wt ∉ WindowType.all_types) (len : ℕ) :
    make_window_run wt len = Except.ok none := by
  simp only [WindowType.all_types, List.mem_cons, List.not_mem_nil, or_false, not_or] at h
  obtain ⟨h1, h2, h3, h4⟩ := h
  unfold make_window_run make_window
  rw [if_neg h1, if_neg h3, if_neg h4, if_neg h2]

/-- C6 witness: the amended law evaluated at the concrete unknown tag. -/
theorem C6_unknown_window_witness :
    WT_UNKNOWN ∉ WindowType.all_types ∧ make_window_run WT_UNKNOWN 7 = Except.ok none :=
  ⟨by decide, C6_unknown_window WT_UNKNOWN (by decide) 7⟩

/-! ### C7: forward-transform input validation -/

/-- C7 counterexample: `e_stft` on an empty signal (with perfectly ordinary
window and hop parameters) does not raise anything at all — it returns a
spectrogram — contradicting the claim that an empty signal raises
`InvalidParameter` immediately. -/
theorem C7_counterexample :
    e_stft_checked sig_empty 2 1 WindowType.HANN none true
      = Except.ok (e_stft sig_empty 2 1 WindowType.HANN none true) := by
  have hw : make_window WindowType.HANN 2 = some (hann_win 2) := by
    unfold make_window
    rw [if_neg (by decide), if_pos rfl]
  unfold e_stft_checked
  rw [if_neg (by decide), if_neg (by rw [hw]; simp)]

/-- C7 (amended): `e_stft` performs no input validation of its own; no
`InvalidParameter` exception exists in the source, so no call — whatever the
window length, hop length or signal — ever surfaces one.  Invalid inputs
either propagate as unrelated low-level failures (`hop_length = 0` hits a
`ZeroDivisionError` in the modulo of line 146, an unknown window type a
`TypeError` at line 162) or are silently accepted (an empty signal yields a
spectrogram). -/
theorem C7_no_validation (x : RArr) (W H : ℕ) (wt : String) (nfft : Option ℕ) (rr : Bool) :
    e_stft_checked x W H wt nfft rr ≠ Except.error ERR_INVALID_PARAMETER := by
  unfold e_stft_checked
  split_ifs with h1 h2
  · intro h
    exact absurd (by injection h) (by decide : ¬ ERR_ZERO_DIVISION = ERR_INVALID_PARAMETER)
  · intro h
    exact absurd (by injection h) (by decide : ¬ ERR_TYPE = ERR_INVALID_PARAMETER)
  · exact fun h => Except.noConfusion h

/-! ### C8: the two n_fft_bins defaults -/

/-- C8: with `n_fft_bins` unspecified, `e_stft` resolves it to
`2 ^ ⌈log₂ W⌉`, which is the smallest power of two at or above the window
length (second and third conjuncts), while `e_stft_plus` resolves it to the
window length itself and forwards that to `e_stft` (fourth conjunct): the two
entry points keep their distinct defaults. -/
theorem C8_nfft_defaults (x : RArr) (W H : ℕ) (wt : String) (sr : ℕ) (rr : Bool)
    (hW : 1 ≤ W) :
    e_stft x W H wt none rr = e_stft x W H wt (some (2 ^ Nat.clog 2 W)) rr
      ∧ W ≤ 2 ^ Nat.clog 2 W
      ∧ (∀ k, W ≤ 2 ^ k → 2 ^ Nat.clog 2 W ≤ 2 ^ k)
      ∧ (e_stft_plus x W H wt sr none).1 = e_stft x W H wt (some W) true := by
  refine ⟨rfl, Nat.le_pow_clog one_lt_two W, fun k hk => ?_, rfl⟩
  exact Nat.pow_le_pow_right (by omega) ((Nat.le_pow_iff_clog_le one_lt_two).mp hk)

/-- C8 witness: the `e_stft_plus` default evaluated at window length 3. -/
theorem C8_nfft_defaults_witness :
    1 ≤ 3 ∧ (e_stft_plus sig_five 3 1 WindowType.HANN 8 none).1
      = e_stft sig_five 3 1 WindowType.HANN (some 3) true :=
  ⟨by decide, (C8_nfft_defaults sig_five 3 1 WindowType.HANN 8 true (by decide)).2.2.2⟩

/-! ### C10: e_istft ignores window_type -/

/-- C10: `e_istft` accepts a `window_type` argument (marked deprecated) and
never reads it — no synthesis window is applied during overlap-add — so any
two calls differing only in `window_type` return identical signals. -/
theorem C10_window_type_ignored (stft : Spectro) (W H : ℕ) (wt1 wt2 : String)
    (rr rp : Bool) :
    e_istft stft W H wt1 rr rp = e_istft stft W H wt2 rr rp := rfl

/-! ### C9: inverse output length and trimming -/

/-- C9 counterexample: with `W = 4`, `H = 1` and a single frame the buffer
has length 4 but the trim of `W - H = 3` "from each end" cannot remove 6
samples from 4; Python slice clamping returns the empty signal, so the
"exactly `W - H` trimmed from each end" law (which forces
`trimmed + 2*(W-H) = full`) fails. -/
theorem C9_counterexample :
    ¬ ((e_istft sp_three_one 4 1 WindowType.HANN true true).len + 2 * (4 - 1)
        = (e_istft sp_three_one 4 1 WindowType.HANN true false).len) := by
  decide

/-- C9 (amended): for a spectrogram with at least one frame the overlap-add
buffer has length `(frames - 1)*hop + W` and `remove_padding = False` returns
it whole; the `remove_padding = True` trim removes exactly `W - hop` samples
from each end provided `hop ≤ W` (otherwise the Python slice start
`W - hop` is negative and wraps around) and the two trims fit inside the
buffer, i.e. `W ≤ (frames + 1) * hop`. -/
theorem C9_istft_length (sp : Spectro) (W H : ℕ) (wt : String) (rr : Bool)
    (hF : 1 ≤ sp.frames) (hHW : H ≤ W) (hfit : W ≤ (sp.frames + 1) * H) :
    (e_istft sp W H wt rr false).len = (sp.frames - 1) * H + W
      ∧ (e_istft sp W H wt rr false).val = istft_buffer sp W H rr
      ∧ (e_istft sp W H wt rr true).len = ((sp.frames - 1) * H + W) - 2 * (W - H)
      ∧ (∀ t, t < ((sp.frames - 1) * H + W) - 2 * (W - H) →
          (e_istft sp W H wt rr true).val t
            = (e_istft sp W H wt rr false).val ((W - H) + t)) := by
  obtain ⟨F, hFe⟩ : ∃ F, sp.frames = F + 1 := ⟨sp.frames - 1, by omega⟩
  have hslenZ : ((sp.frames : ℤ) - 1) * H + W = (((sp.frames - 1) * H + W : ℕ) : ℤ) := by
    rw [hFe]
    push_cast
    ring
  have hslen : (((sp.frames : ℤ) - 1) * H + W).toNat = (sp.frames - 1) * H + W := by
    rw [hslenZ, Int.toNat_natCast]
  have hfit2 : 2 * (W - H) ≤ (sp.frames - 1) * H + W := by
    have h1 : (sp.frames + 1) * H = (sp.frames - 1) * H + 2 * H := by
      rw [hFe, Nat.add_sub_cancel]
      ring
    rw [h1] at hfit
    set K := (sp.frames - 1) * H
    omega
  have hstart : pynorm ((sp.frames - 1) * H + W) ((W : ℤ) - H) = W - H := by
    rw [pynorm_eq_toNat _ _ (by omega) (by push_cast; omega)]
    omega
  have hstop : pynorm ((sp.frames - 1) * H + W)
      ((((sp.frames : ℤ) - 1) * H + W) - ((W : ℤ) - H))
      = ((sp.frames - 1) * H + W) - (W - H) := by
    rw [hslenZ]
    rw [pynorm_eq_toNat _ _ (by push_cast; omega) (by push_cast; omega)]
    push_cast
    omega
  refine ⟨?_, rfl, ?_, ?_⟩
  · show (((sp.frames : ℤ) - 1) * H + W).toNat = _
    exact hslen
  · show pynorm (((sp.frames : ℤ) - 1) * H + W).toNat _ - pynorm (((sp.frames : ℤ) - 1) * H + W).toNat _ = _
    rw [hslen, hstart, hstop]
    omega
  · intro t ht
    show istft_buffer sp W H rr (pynorm (((sp.frames : ℤ) - 1) * H + W).toNat ((W : ℤ) - H) + t) = _
    rw [hslen, hstart]
    rfl

/-- C9 witness: the amended law evaluated on an all-zero 3-bin 2-frame
spectrogram with `W = 4`, `H = 2`. -/
theorem C9_istft_length_witness :
    (1 ≤ sp_three_two.frames ∧ 2 ≤ 4 ∧ 4 ≤ (sp_three_two.frames + 1) * 2)
      ∧ (e_istft sp_three_two 4 2 WindowType.HANN true false).len = 6
      ∧ (e_istft sp_three_two 4 2 WindowType.HANN true true).len = 2 :=
  ⟨by decide,
    ((C9_istft_length sp_three_two 4 2 WindowType.HANN true (by decide) (by decide)
      (by decide)).1).trans (by decide),
    ((C9_istft_length sp_three_two 4 2 WindowType.HANN true (by decide) (by decide)
      (by decide)).2.2.1).trans (by decide)⟩

/-! ### C5: lazy-dependent parameter defaults -/

theorem hop_tracks_aux (ops : List ParamOp) :
    ∀ s : StftParams, s.hop_length_needs_update = true →
      s.hidden_hop_length = s.hidden_window_length / 2 →
      (∀ op ∈ ops, op.touches_hop = false) →
      (s.applyList ops).hop_length_needs_update = true ∧
        (s.applyList ops).hidden_hop_length = (s.applyList ops).hidden_window_length / 2 := by
  induction ops with
  | nil => intro s h1 h2 _; exact ⟨h1, h2⟩
  | cons op rest ih =>
      intro s h1 h2 hops
      have hop0 : op.touches_hop = false := hops op (by simp)
      have hrest : ∀ o ∈ rest, o.touches_hop = false := fun o ho => hops o (by simp [ho])
      have hstep : (s.apply op).hop_length_needs_update = true ∧
          (s.apply op).hidden_hop_length = (s.apply op).hidden_window_length / 2 := by
        cases op with
        | set_window_length v => exact ⟨h1, by simp [StftParams.apply, h1]⟩
        | set_hop_length v => simp [ParamOp.touches_hop] at hop0
        | set_n_fft_bins v => exact ⟨h1, h2⟩
        | set_window_type v => exact ⟨h1, h2⟩
        | set_sample_rate v => exact ⟨h1, h2⟩
      exact ih (s.apply op) hstep.1 hstep.2 hrest

theorem nfft_tracks_aux (ops : List ParamOp) :
    ∀ s : StftParams, s.n_fft_bins_needs_update = true →
      s.hidden_n_fft_bins = s.hidden_window_length →
      (∀ op ∈ ops, op.touches_nfft = false) →
      (s.applyList ops).n_fft_bins_needs_update = true ∧
        (s.applyList ops).hidden_n_fft_bins = (s.applyList ops).hidden_window_length := by
  induction ops with
  | nil => intro s h1 h2 _; exact ⟨h1, h2⟩
  | cons op rest ih =>
      intro s h1 h2 hops
      have hop0 : op.touches_nfft = false := hops op (by simp)
      have hrest : ∀ o ∈ rest, o.touches_nfft = false := fun o ho => hops o (by simp [ho])
      have hstep : (s.apply op).n_fft_bins_needs_update = true ∧
          (s.apply op).hidden_n_fft_bins = (s.apply op).hidden_window_length := by
        cases op with
        | set_window_length v => exact ⟨h1, by simp [StftParams.apply, h1]⟩
        | set_hop_length v => exact ⟨h1, h2⟩
        | set_n_fft_bins v => simp [ParamOp.touches_nfft] at hop0
        | set_window_type v => exact ⟨h1, h2⟩
        | set_sample_rate v => exact ⟨h1, h2⟩
      exact ih (s.apply op) hstep.1 hstep.2 hrest

theorem hop_frozen_aux (ops : List ParamOp) :
    ∀ s : StftParams, s.hop_length_needs_update = false →
      (∀ op ∈ ops, op.touches_hop = false) →
      (s.applyList ops).hidden_hop_length = s.hidden_hop_length ∧
        (s.applyList ops).hop_length_needs_update = false := by
  induction ops with
  | nil => intro s h1 _; exact ⟨rfl, h1⟩
  | cons op rest ih =>
      intro s h1 hops
      have hop0 : op.touches_hop = false := hops op (by simp)
      have hrest : ∀ o ∈ rest, o.touches_hop = false := fun o ho => hops o (by simp [ho])
      have hstep : (s.apply op).hidden_hop_length = s.hidden_hop_length ∧
          (s.apply op).hop_length_needs_update = false := by
        cases op with
        | set_window_length v => exact ⟨by simp [StftParams.apply, h1], h1⟩
        | set_hop_length v => simp [ParamOp.touches_hop] at hop0
        | set_n_fft_bins v => exact ⟨rfl, h1⟩
        | set_window_type v => exact ⟨rfl, h1⟩
        | set_sample_rate v => exact ⟨rfl, h1⟩
      obtain ⟨ha, hb⟩ := ih (s.apply op) hstep.2 hrest
      exact ⟨by rw [StftParams.applyList, List.foldl_cons] at *; rw [ha, hstep.1], hb⟩

theorem nfft_frozen_aux (ops : List ParamOp) :
    ∀ s : StftParams, s.n_fft_bins_needs_update = false →
      (∀ op ∈ ops, op.touches_nfft = false) →
      (s.applyList ops).hidden_n_fft_bins = s.hidden_n_fft_bins ∧
        (s.applyList ops).n_fft_bins_needs_update = false := by
  induction ops with
  | nil => intro s h1 _; exact ⟨rfl, h1⟩
  | cons op rest ih =>
      intro s h1 hops
      have hop0 : op.touches_nfft = false := hops op (by simp)
      have hrest : ∀ o ∈ rest, o.touches_nfft = false := fun o ho => hops o (by simp [ho])
      have hstep : (s.apply op).hidden_n_fft_bins = s.hidden_n_fft_bins ∧
          (s.apply op).n_fft_bins_needs_update = false := by
        cases op with
        | set_window_length v => exact ⟨by simp [StftParams.apply, h1], h1⟩
        | set_hop_length v => exact ⟨rfl, h1⟩
        | set_n_fft_bins v => simp [ParamOp.touches_nfft] at hop0
        | set_window_type v => exact ⟨rfl, h1⟩
        | set_sample_rate v => exact ⟨rfl, h1⟩
      obtain ⟨ha, hb⟩ := ih (s.apply op) hstep.2 hrest
      exact ⟨by rw [StftParams.applyList, List.foldl_cons] at *; rw [ha, hstep.1], hb⟩

/-- C5: the lazy-dependent defaults invariant of `StftParams`.  First and
second conjuncts: starting from a constructor call in which `hop_length`
(resp. `n_fft_bins`) was not passed, any sequence of attribute writes that
never writes that field leaves it equal to `window_length / 2`
(resp. `window_length`) — in particular every write to `window_length`
re-derives it.  Third and fourth conjuncts: once the field has been written
explicitly, any later sequence of writes that does not write it again —
including arbitrarily many `window_length` writes — leaves it at the
explicitly-set value. -/
theorem C5_lazy_defaults (sr : ℕ) (wl0 hop0 nfft0 : Option ℕ) (wt0 : Option String)
    (ops : List ParamOp) :
    (hop0 = none → (∀ op ∈ ops, op.touches_hop = false) →
      ((StftParams.init sr wl0 hop0 wt0 nfft0).applyList ops).hidden_hop_length
        = ((StftParams.init sr wl0 hop0 wt0 nfft0).applyList ops).hidden_window_length / 2)
      ∧ (nfft0 = none → (∀ op ∈ ops, op.touches_nfft = false) →
        ((StftParams.init sr wl0 hop0 wt0 nfft0).applyList ops).hidden_n_fft_bins
          = ((StftParams.init sr wl0 hop0 wt0 nfft0).applyList ops).hidden_window_length)
      ∧ (∀ (s : StftParams) (h : ℕ) (ops2 : List ParamOp),
        (∀ op ∈ ops2, op.touches_hop = false) →
        ((s.apply (ParamOp.set_hop_length h)).applyList ops2).hidden_hop_length = h)
      ∧ (∀ (s : StftParams) (nf : ℕ) (ops2 : List ParamOp),
        (∀ op ∈ ops2, op.touches_nfft = false) →
        ((s.apply (ParamOp.set_n_fft_bins nf)).applyList ops2).hidden_n_fft_bins = nf) := by
  refine ⟨?_, ?_, ?_, ?_⟩
  · intro h0 hops
    subst h0
    exact (hop_tracks_aux ops _ (by simp [StftParams.init]) (by simp [StftParams.init]) hops).2
  · intro h0 hops
    subst h0
    exact (nfft_tracks_aux ops _ (by simp [StftParams.init]) (by simp [StftParams.init]) hops).2
  · intro s h ops2 hops
    have := hop_frozen_aux ops2 (s.apply (ParamOp.set_hop_length h))
      (by simp [StftParams.apply]) hops
    rw [this.1]
    rfl
  · intro s nf ops2 hops
    have := nfft_frozen_aux ops2 (s.apply (ParamOp.set_n_fft_bins nf))
      (by simp [StftParams.apply]) hops
    rw [this.1]
    rfl

/-- C5 witness: never-set hop keeps tracking `window_length / 2` through a
`window_length` write followed by an `n_fft_bins` write. -/
theorem C5_lazy_defaults_witness :
    (∀ op ∈ [ParamOp.set_window_length 9, ParamOp.set_n_fft_bins 3], op.touches_hop = false)
      ∧ ((StftParams.init 100 (some 10) none none none).applyList
          [ParamOp.set_window_length 9, ParamOp.set_n_fft_bins 3]).hidden_hop_length = 4 :=
  ⟨by decide,
    ((C5_lazy_defaults 100 (some 10) none none none
      [ParamOp.set_window_length 9, ParamOp.set_n_fft_bins 3]).1 rfl (by decide)).trans
      (by decide)⟩

/-! ### C2: shape law -/

theorem nat_mul_pred_div (H a : ℕ) (hH : 0 < H) (ha : 0 < a) :
    (H * a - 1) / H = a - 1 := by
  obtain ⟨a0, rfl⟩ : ∃ a0, a = a0 + 1 := ⟨a - 1, by omega⟩
  have h2 : H * (a0 + 1) = H * a0 + H := by ring
  have h1 : H * (a0 + 1) - 1 = H * a0 + (H - 1) := by omega
  rw [h1, Nat.mul_add_div hH, Nat.div_eq_of_lt (by omega)]
  omega

theorem e_stft_frames_eq (x : RArr) (W H n : ℕ) (wt : String) (hH : 0 < H)
    (hp : H ∣ W / 2) (hL : H ∣ x.len) (hWL : W ≤ x.len) :
    (e_stft x W H wt (some n) true).frames = (x.len - W) / H + 1 := by
  obtain ⟨c, hc⟩ := hL
  obtain ⟨d, hd⟩ := hp
  have hpad : stft_head_pad W = H * d := by rw [stft_head_pad_eq_div, hd]
  have hz : stft_tail_pad x.len H = 0 := stft_tail_pad_of_dvd _ _ ⟨c, hc⟩
  have hlen : (stft_pad x W H).len = H * d + x.len + H * d := by
    rw [stft_pad_len, hpad, hz]
    omega
  have hmod := Nat.div_add_mod W 2
  have hW2 : W = 2 * (H * d) + W % 2 := by
    rw [hd] at hmod
    omega
  have hfirst : stft_first W H = d := by
    rw [stft_first, hpad, Nat.mul_div_cancel_left d hH]
  have htrim : (stft_head_pad W + stft_tail_pad x.len H) / H = d := by
    rw [hpad, hz, Nat.add_zero, Nat.mul_div_cancel_left d hH]
  have hdistrib : H * (2 * d) = 2 * (H * d) := by ring
  have hcast : (((stft_pad x W H).len : ℤ) - W) = (((stft_pad x W H).len - W : ℕ) : ℤ) := by
    have : W ≤ (stft_pad x W H).len := by omega
    omega
  have hframes : (e_stft x W H wt (some n) true).frames
      = pynorm (stft_num_blocks x W H) (stft_last x W H)
        - pynorm (stft_num_blocks x W H) ((stft_first W H : ℕ) : ℤ) := rfl
  rcases (by omega : W % 2 = 0 ∨ W % 2 = 1) with hr | hr
  · -- even window length
    have h2dc : 2 * d ≤ c := by
      refine Nat.le_of_mul_le_mul_left ?_ hH
      calc H * (2 * d) = 2 * (H * d) := hdistrib
        _ ≤ H * c := by omega
    have hnum : (stft_pad x W H).len - W = H * c := by omega
    have hnb : stft_num_blocks x W H = c + 1 := by
      rw [stft_num_blocks, hcast, hnum, ← Int.ofNat_fdiv, Nat.mul_div_cancel_left c hH]
      omega
    have hsub : x.len - W = H * (c - 2 * d) := by
      have hms : H * (c - 2 * d) = H * c - H * (2 * d) := Nat.mul_sub_left_distrib H c (2 * d)
      omega
    rw [hframes, hnb, hfirst, stft_last, hnb, htrim, hsub,
      Nat.mul_div_cancel_left _ hH]
    rw [pynorm_natCast _ d (by omega),
      pynorm_eq_toNat _ _ (by omega) (by omega)]
    omega
  · -- odd window length
    have h2dc : 2 * d < c := by
      refine Nat.lt_of_mul_lt_mul_left (a := H) ?_
      calc H * (2 * d) = 2 * (H * d) := hdistrib
        _ < H * c := by omega
    have hc1 : 0 < c := by omega
    have hnum : (stft_pad x W H).len - W = H * c - 1 := by omega
    have hnb : stft_num_blocks x W H = c := by
      rw [stft_num_blocks, hcast, hnum, ← Int.ofNat_fdiv, nat_mul_pred_div H c hH hc1]
      omega
    have hsub : x.len - W = H * (c - 2 * d) - 1 := by
      have hms : H * (c - 2 * d) = H * c - H * (2 * d) := Nat.mul_sub_left_distrib H c (2 * d)
      omega
    rw [hframes, hnb, hfirst, stft_last, hnb, htrim, hsub,
      nat_mul_pred_div H (c - 2 * d) hH (by omega)]
    rw [pynorm_natCast _ d (by omega),
      pynorm_eq_toNat _ _ (by omega) (by omega)]
    omega

/-- C2 counterexample: with `W = 4`, `H = 2` (the canonical 50% hop) and a
5-sample signal, the tail padding adds one extra hop of artificial signal
and the trim keeps a frame inside it: `e_stft` returns 2 frames while the
claimed formula `⌊(L - W)/H⌋ + 1` gives 1. -/
theorem C2_counterexample :
    ¬ ((e_stft sig_five 4 2 WindowType.RECTANGULAR (some 4) true).frames
        = (sig_five.len - 4) / 2 + 1) := by
  decide

/-- C2 (amended): with `remove_reflection` the spectrogram always has exactly
`⌊n_fft_bins/2⌋ + 1` bins; the frame count equals
`⌊(L - W)/H⌋ + 1` computed from the original signal length `L` provided the
hop divides both the head pad `⌊W/2⌋` and `L` (so no partial hop of padding
survives the trim) and `W ≤ L`. -/
theorem C2_shape (x : RArr) (W H n : ℕ) (wt : String) (hH : 0 < H)
    (hp : H ∣ W / 2) (hL : H ∣ x.len) (hWL : W ≤ x.len) :
    (e_stft x W H wt (some n) true).bins = n / 2 + 1
      ∧ (e_stft x W H wt (some n) true).frames = (x.len - W) / H + 1 :=
  ⟨rfl, e_stft_frames_eq x W H n wt hH hp hL hWL⟩

/-- C2 witness: the shape law on an 8-sample signal with `W = 4`, `H = 2`,
`n_fft_bins = 4`: 3 bins and 3 frames. -/
theorem C2_shape_witness :
    (0 < 2 ∧ 2 ∣ 4 / 2 ∧ 2 ∣ sig_eight.len ∧ 4 ≤ sig_eight.len)
      ∧ (e_stft sig_eight 4 2 WindowType.HANN (some 4) true).bins = 3
      ∧ (e_stft sig_eight 4 2 WindowType.HANN (some 4) true).frames = 3 :=
  ⟨by decide,
    ((C2_shape sig_eight 4 2 4 WindowType.HANN (by decide) (by decide) (by decide)
      (by decide)).1).trans (by decide),
    ((C2_shape sig_eight 4 2 4 WindowType.HANN (by decide) (by decide) (by decide)
      (by decide)).2).trans (by decide)⟩

/-! ### C3: conjugate-symmetry of the rebuilt full spectrum -/

/-- C3 counterexample: `e_istft`'s rebuild concatenates the conjugated rows
`nbins-2 .. 1` after the supplied rows, so the Nyquist row (index
`nbins - 1 = n_fft/2`) is never conjugated; for a column whose Nyquist bin is
not real (here `i`), `full[n_fft - k] = conj(full[k])` fails at
`k = n_fft/2`: with `n_fft = 2` and column `(1, i)`, `full[1] = i` but
`conj(full[1]) = -i`. -/
theorem C3_counterexample :
    ¬ (rebuild_full col_nyquist (2 / 2 + 1) (2 - 1)
        = (starRingEnd ℂ) (rebuild_full col_nyquist (2 / 2 + 1) 1)) := by
  intro h
  rw [show (2 : ℕ) / 2 + 1 = 2 from rfl, show (2 : ℕ) - 1 = 1 from rfl] at h
  rw [rebuild_full, if_pos (by omega)] at h
  rw [show col_nyquist 1 = Complex.I from rfl, Complex.conj_I] at h
  have him := congrArg Complex.im h
  simp at him
  norm_num at him

/-- C3 (amended): for every non-redundant column with `⌊n/2⌋ + 1` bins and
even `n ≥ 2`, the full spectrum rebuilt by `e_istft`'s reflection step
satisfies `full[n - k] = conj(full[k])` for all `1 ≤ k ≤ n - 1`, provided
the column's Nyquist bin (index `n/2`) is real — which holds for every
column produced by `e_stft` on a real signal, but not for an arbitrary
complex column, where the law fails exactly at `k = n/2`. -/
theorem C3_conj_symmetry (col : ℕ → ℂ) (n k : ℕ) (hn2 : 2 ≤ n) (heven : n % 2 = 0)
    (hNy : (starRingEnd ℂ) (col (n / 2)) = col (n / 2))
    (hk1 : 1 ≤ k) (hk2 : k ≤ n - 1) :
    rebuild_full col (n / 2 + 1) (n - k) = (starRingEnd ℂ) (rebuild_full col (n / 2 + 1) k) := by
  obtain ⟨N, hN⟩ : ∃ N, n = 2 * N := ⟨n / 2, by omega⟩
  subst hN
  have h22 : 2 * N / 2 = N := by omega
  rw [h22] at hNy ⊢
  have hN1 : 1 ≤ N := by omega
  rcases (by omega : k < N ∨ k = N ∨ (N + 1 ≤ k ∧ k ≤ 2 * N - 1)) with hcase | hcase | hcase
  · -- supplied row k, mirrored partner sits in the reflection block
    have hL1 : ¬ (2 * N - k < N + 1) := by omega
    have hR1 : k < N + 1 := by omega
    rw [rebuild_full, if_neg hL1, rebuild_full, if_pos hR1]
    congr 2
    omega
  · -- the Nyquist row: both sides are the same un-conjugated row
    subst hcase
    rw [show 2 * k - k = k from by omega]
    rw [rebuild_full, if_pos (by omega)]
    exact hNy.symm
  · -- reflection row k, supplied partner
    have hL3 : 2 * N - k < N + 1 := by omega
    have hR3 : ¬ (k < N + 1) := by omega
    rw [rebuild_full, if_pos hL3, rebuild_full, if_neg hR3]
    rw [Complex.conj_conj]
    congr 1
    omega

/-- C3 witness: the amended law at `n = 4`, `k = 3` on a column with real
Nyquist bin. -/
theorem C3_conj_symmetry_witness :
    ((starRingEnd ℂ) (col_real_nyquist (4 / 2)) = col_real_nyquist (4 / 2))
      ∧ rebuild_full col_real_nyquist (4 / 2 + 1) (4 - 3)
        = (starRingEnd ℂ) (rebuild_full col_real_nyquist (4 / 2 + 1) 3) :=
  ⟨by simp [col_real_nyquist, map_ofNat],
    C3_conj_symmetry col_real_nyquist 4 3 (by decide) (by decide)
      (by simp [col_real_nyquist, map_ofNat]) (by decide) (by decide)⟩

/-! ### C1: round trip -/

/-- C1 counterexample: the round trip does not reconstruct `x`.  With the
COLA pair (Hann, `W = 2`, `H = W/2 = 1`, `n_fft_bins = W`) on the 2-sample
signal, `e_istft(e_stft(x))` with `remove_padding=True` returns a signal of
length 0, not 2: the frame trim plus edge trim cut `W - H` genuine samples
from each end of the signal. -/
theorem C1_counterexample :
    ¬ ((e_istft (e_stft sig_two 2 1 WindowType.HANN (some 2) true)
          2 1 WindowType.HANN true true).len = sig_two.len) := by
  decide

theorem cola_shape (x : RArr) (H c : ℕ) (hH : 0 < H) (hc : x.len = H * c) :
    stft_head_pad (2 * H) = H
      ∧ stft_tail_pad x.len H = 0
      ∧ stft_num_blocks x (2 * H) H = c + 1
      ∧ stft_first (2 * H) H = 1
      ∧ stft_last x (2 * H) H = (c : ℤ)
      ∧ ∀ n wt, (e_stft x (2 * H) H wt (some n) true).frames = c - 1 := by
  have hhp : stft_head_pad (2 * H) = H := by
    rw [stft_head_pad_eq_div]
    omega
  have hz : stft_tail_pad x.len H = 0 := stft_tail_pad_of_dvd _ _ ⟨c, hc⟩
  have hplen : (stft_pad x (2 * H) H).len = H + x.len + H := by
    rw [stft_pad_len, hhp, hz]
    omega
  have hnb : stft_num_blocks x (2 * H) H = c + 1 := by
    rw [stft_num_blocks]
    have hcast : (((stft_pad x (2 * H) H).len : ℤ) - ((2 * H : ℕ) : ℤ)) = ((x.len : ℕ) : ℤ) := by
      rw [hplen]
      push_cast
      ring
    rw [hcast, hc, ← Int.ofNat_fdiv, Nat.mul_div_cancel_left c hH]
    omega
  have hfirst : stft_first (2 * H) H = 1 := by
    rw [stft_first, hhp, Nat.div_self hH]
  have htrim1 : (stft_head_pad (2 * H) + stft_tail_pad x.len H) / H = 1 := by
    rw [hhp, hz, Nat.add_zero, Nat.div_self hH]
  have hlast : stft_last x (2 * H) H = (c : ℤ) := by
    rw [stft_last, hnb, htrim1]
    push_cast
    ring
  refine ⟨hhp, hz, hnb, hfirst, hlast, fun n wt => ?_⟩
  show pynorm (stft_num_blocks x (2 * H) H) (stft_last x (2 * H) H)
      - pynorm (stft_num_blocks x (2 * H) H) ((stft_first (2 * H) H : ℕ) : ℤ) = c - 1
  rw [hnb, hfirst, hlast, pynorm_natCast _ c (by omega), pynorm_natCast _ 1 (by omega)]

theorem cola_buffer (x : RArr) (H c : ℕ) (hH : 0 < H) (hc : x.len = H * c) (hc2 : 2 ≤ c)
    (s : ℕ) (hs1 : H ≤ s) (hs2 : s < x.len - H) :
    istft_buffer (e_stft x (2 * H) H WindowType.HANN (some (2 * H)) true) (2 * H) H true s
      = x.val s := by
  obtain ⟨hhp, hz, hnb, hfirst, hlast, hframes⟩ := cola_shape x H c hH hc
  have hFr := hframes (2 * H) WindowType.HANN
  have hbins : (e_stft x (2 * H) H WindowType.HANN (some (2 * H)) true).bins = H + 1 := by
    show 2 * H / 2 + 1 = H + 1
    omega
  have hwin : (make_window WindowType.HANN (2 * H)).getD (fun _ => 0) = hann_win (2 * H) := by
    unfold make_window
    rw [if_neg (by decide), if_pos rfl]
    rfl
  have hsav : ∀ q b, stft_all_val x (2 * H) H (2 * H) WindowType.HANN b q
      = dft (2 * H)
          (fun j => Complex.ofReal
            (stft_frame (hann_win (2 * H)) (stft_pad x (2 * H) H) (2 * H) H q j)) b := by
    intro q b
    unfold stft_all_val
    simp only [hwin]
  have hval : ∀ b m, b < H + 1 →
      (e_stft x (2 * H) H WindowType.HANN (some (2 * H)) true).val b m
        = stft_all_val x (2 * H) H (2 * H) WindowType.HANN b (1 + m) := by
    intro b m hb
    have h1 : (e_stft x (2 * H) H WindowType.HANN (some (2 * H)) true).val b m
        = if b < 2 * H / 2 + 1 then
            stft_all_val x (2 * H) H (2 * H) WindowType.HANN b
              (pynorm (stft_num_blocks x (2 * H) H) ((stft_first (2 * H) H : ℕ) : ℤ) + m)
          else 0 := rfl
    rw [h1, if_pos (by omega), hnb, hfirst, pynorm_natCast _ 1 (by omega)]
  have hcol2 : ∀ k b, b < 2 * H →
      istft_col (e_stft x (2 * H) H WindowType.HANN (some (2 * H)) true) true b k
        = dft (2 * H)
            (fun j => Complex.ofReal
              (stft_frame (hann_win (2 * H)) (stft_pad x (2 * H) H) (2 * H) H (1 + k) j)) b := by
    intro k b hb
    have h1 : istft_col (e_stft x (2 * H) H WindowType.HANN (some (2 * H)) true) true b k
        = rebuild_full
            (fun r => (e_stft x (2 * H) H WindowType.HANN (some (2 * H)) true).val r k)
            (e_stft x (2 * H) H WindowType.HANN (some (2 * H)) true).bins b := rfl
    rw [h1, hbins]
    refine rebuild_dft H hH
      (fun j => stft_frame (hann_win (2 * H)) (stft_pad x (2 * H) H) (2 * H) H (1 + k) j)
      _ (fun b2 hb2 => ?_) b hb
    rw [hval b2 k hb2, hsav]
  have hnfull : istft_nfull
      (e_stft x (2 * H) H WindowType.HANN (some (2 * H)) true).bins true = 2 * H := by
    rw [hbins]
    show (H + 1) + (H + 1 - 2) = 2 * H
    omega
  unfold istft_buffer
  rw [hFr, hnfull]
  have hdm := Nat.div_add_mod s H
  have hmod : s % H < H := Nat.mod_lt s hH
  have hq1 : 1 ≤ s / H := (Nat.one_le_div_iff hH).mpr hs1
  have hmsub : H * (c - 1) = H * c - H :=
    (Nat.mul_sub_left_distrib H c 1).trans (by omega)
  have hq2 : s / H < c - 1 := by
    rw [Nat.div_lt_iff_lt_mul hH]
    have hcm : (c - 1) * H = H * (c - 1) := Nat.mul_comm _ _
    omega
  have hqsle : s / H * H ≤ s := Nat.div_mul_le_self s H
  have hqslt : s < s / H * H + H := by
    have hcm2 : s / H * H = H * (s / H) := Nat.mul_comm _ _
    omega
  have he1 : (s / H - 1) * H = s / H * H - H := by
    rw [Nat.sub_mul, one_mul]
  have hge : H ≤ s / H * H := by
    calc H = 1 * H := (one_mul H).symm
      _ ≤ s / H * H := Nat.mul_le_mul_right H hq1
  have hcov : ∀ k, (k * H ≤ s ∧ s < k * H + 2 * H) ↔ (k = s / H - 1 ∨ k = s / H) := by
    intro k
    constructor
    · rintro ⟨h1, h2⟩
      have hk1 : k ≤ s / H := (Nat.le_div_iff_mul_le hH).mpr h1
      have hk2 : s / H < k + 2 := by
        rw [Nat.div_lt_iff_lt_mul hH]
        have h3 : (k + 2) * H = k * H + 2 * H := by ring
        omega
      omega
    · rintro (rfl | rfl) <;> constructor <;> omega
  have hterm : ∀ k, k ∈ Finset.range (c - 1) →
      (if k * H ≤ s ∧ s < k * H + 2 * H then
        (idft (2 * H)
          (fun b => istft_col (e_stft x (2 * H) H WindowType.HANN (some (2 * H)) true) true b k)
          (s - k * H)).re
      else 0)
      = (if k * H ≤ s ∧ s < k * H + 2 * H then
          hann_win (2 * H) (s - k * H) * x.val s else 0) := by
    intro k hk
    by_cases hcond : k * H ≤ s ∧ s < k * H + 2 * H
    · rw [if_pos hcond, if_pos hcond]
      have hjr : s - k * H < 2 * H := by omega
      have hcong : idft (2 * H)
          (fun b => istft_col (e_stft x (2 * H) H WindowType.HANN (some (2 * H)) true) true b k)
          (s - k * H)
          = idft (2 * H)
              (fun b => dft (2 * H)
                (fun j => Complex.ofReal
                  (stft_frame (hann_win (2 * H)) (stft_pad x (2 * H) H) (2 * H) H (1 + k) j)) b)
              (s - k * H) := by
        unfold idft
        congr 1
        exact Finset.sum_congr rfl (fun b hb => by
          simp only [hcol2 k b (Finset.mem_range.mp hb)])
      rw [hcong, idft_dft (2 * H) (by omega) _ _ hjr, Complex.ofReal_re]
      unfold stft_frame
      rw [if_pos hjr]
      congr 1
      have h4 : (1 + k) * H = H + k * H := by ring
      have hidx : (1 + k) * H + (s - k * H) = stft_head_pad (2 * H) + s := by
        rw [hhp]
        omega
      rw [hidx, stft_pad_val, if_neg (by omega), if_pos (by omega)]
      congr 1
      omega
    · rw [if_neg hcond, if_neg hcond]
  rw [Finset.sum_congr rfl hterm]
  have hsubset : ({s / H - 1, s / H} : Finset ℕ) ⊆ Finset.range (c - 1) := by
    intro k hk
    simp only [Finset.mem_insert, Finset.mem_singleton] at hk
    rcases hk with rfl | rfl <;> exact Finset.mem_range.mpr (by omega)
  have hvanish : ∀ k ∈ Finset.range (c - 1), k ∉ ({s / H - 1, s / H} : Finset ℕ) →
      (if k * H ≤ s ∧ s < k * H + 2 * H then
        hann_win (2 * H) (s - k * H) * x.val s else 0) = 0 := by
    intro k _ hknot
    rw [if_neg]
    intro hcond
    rcases (hcov k).mp hcond with rfl | rfl
    · exact hknot (by simp)
    · exact hknot (by simp)
  rw [← Finset.sum_subset hsubset hvanish]
  rw [Finset.sum_pair (by omega : s / H - 1 ≠ s / H)]
  rw [if_pos ((hcov (s / H - 1)).mpr (Or.inl rfl)), if_pos ((hcov (s / H)).mpr (Or.inr rfl))]
  have hr1 : s - (s / H - 1) * H = (s - s / H * H) + H := by omega
  rw [hr1]
  have hcola := hann_cola H hH (s - s / H * H)
  calc hann_win (2 * H) (s - s / H * H + H) * x.val s
        + hann_win (2 * H) (s - s / H * H) * x.val s
      = (hann_win (2 * H) (s - s / H * H)
          + hann_win (2 * H) (s - s / H * H + H)) * x.val s := by ring
    _ = 1 * x.val s := by rw [hcola]
    _ = x.val s := one_mul _

/-- C1 (amended): for the COLA configuration (periodic Hann window,
`W = 2*H`, `n_fft_bins = W`, hop dividing the signal length, `W ≤ L`) the
round trip `e_istft (e_stft x)` with `reconstruct_reflection` and
`remove_padding` reconstructs the INTERIOR of the signal exactly (exact
real arithmetic): the output has length `L - 2*H` — `W - H` samples shorter
at each end than `x` — and its sample `t` equals `x (t + H)` exactly.  It
does not reconstruct `x` itself (see the counterexample): the head/tail
samples are cut, not approximated. -/
theorem C1_roundtrip (x : RArr) (H : ℕ) (hH : 0 < H) (hdvd : H ∣ x.len)
    (hlen2 : 2 * H ≤ x.len) :
    (e_istft (e_stft x (2 * H) H WindowType.HANN (some (2 * H)) true)
        (2 * H) H WindowType.HANN true true).len = x.len - 2 * H
      ∧ ∀ t, t < x.len - 2 * H →
        (e_istft (e_stft x (2 * H) H WindowType.HANN (some (2 * H)) true)
            (2 * H) H WindowType.HANN true true).val t = x.val (t + H) := by
  obtain ⟨c, hc⟩ := hdvd
  have hc2 : 2 ≤ c := by
    have h1 : H * 2 ≤ H * c := by omega
    exact Nat.le_of_mul_le_mul_left h1 hH
  obtain ⟨hhp, hz, hnb, hfirst, hlast, hframes⟩ := cola_shape x H c hH hc
  have hFr := hframes (2 * H) WindowType.HANN
  have hslenZ : (((e_stft x (2 * H) H WindowType.HANN (some (2 * H)) true).frames : ℤ) - 1)
      * (H : ℤ) + ((2 * H : ℕ) : ℤ) = ((x.len : ℕ) : ℤ) := by
    rw [hFr, hc]
    have hcast : ((c - 1 : ℕ) : ℤ) = (c : ℤ) - 1 := by omega
    rw [hcast]
    push_cast
    ring
  have hslen : ((((e_stft x (2 * H) H WindowType.HANN (some (2 * H)) true).frames : ℤ) - 1)
      * (H : ℤ) + ((2 * H : ℕ) : ℤ)).toNat = x.len := by
    rw [hslenZ]
    omega
  have hstart : pynorm x.len (((2 * H : ℕ) : ℤ) - (H : ℤ)) = H := by
    rw [pynorm_eq_toNat _ _ (by push_cast; omega) (by push_cast; omega)]
    push_cast
    omega
  constructor
  · show pynorm
        ((((e_stft x (2 * H) H WindowType.HANN (some (2 * H)) true).frames : ℤ) - 1)
          * (H : ℤ) + ((2 * H : ℕ) : ℤ)).toNat
        (((((e_stft x (2 * H) H WindowType.HANN (some (2 * H)) true).frames : ℤ) - 1)
          * (H : ℤ) + ((2 * H : ℕ) : ℤ)) - (((2 * H : ℕ) : ℤ) - (H : ℤ)))
      - pynorm
        ((((e_stft x (2 * H) H WindowType.HANN (some (2 * H)) true).frames : ℤ) - 1)
          * (H : ℤ) + ((2 * H : ℕ) : ℤ)).toNat
        (((2 * H : ℕ) : ℤ) - (H : ℤ)) = x.len - 2 * H
    rw [hslen, hslenZ, hstart]
    rw [pynorm_eq_toNat _ _ (by push_cast; omega) (by push_cast; omega)]
    push_cast
    omega
  · intro t ht
    show istft_buffer (e_stft x (2 * H) H WindowType.HANN (some (2 * H)) true) (2 * H) H true
        (pynorm
          ((((e_stft x (2 * H) H WindowType.HANN (some (2 * H)) true).frames : ℤ) - 1)
            * (H : ℤ) + ((2 * H : ℕ) : ℤ)).toNat
          (((2 * H : ℕ) : ℤ) - (H : ℤ)) + t) = x.val (t + H)
    rw [hslen, hstart]
    rw [cola_buffer x H c hH hc hc2 (H + t) (by omega) (by omega)]
    congr 1
    omega

/-- C1 witness: the round trip on the concrete 8-sample signal with `H = 2`:
4 interior samples come back exactly, sample 1 of the output being sample 3
of the input. -/
theorem C1_roundtrip_witness :
    (0 < 2 ∧ 2 ∣ sig_eight.len ∧ 2 * 2 ≤ sig_eight.len)
      ∧ (e_istft (e_stft sig_eight (2 * 2) 2 WindowType.HANN (some (2 * 2)) true)
          (2 * 2) 2 WindowType.HANN true true).len = 4
      ∧ (e_istft (e_stft sig_eight (2 * 2) 2 WindowType.HANN (some (2 * 2)) true)
          (2 * 2) 2 WindowType.HANN true true).val 1 = sig_eight.val 3 :=
  ⟨by decide,
    ((C1_roundtrip sig_eight 2 (by decide) (by decide) (by decide)).1).trans (by decide),
    (C1_roundtrip sig_eight 2 (by decide) (by decide) (by decide)).2 1 (by decide)⟩
